import Mathlib

/-!
Verification of the directory-discovery and change-set-filtering logic of the
repository's test-orchestration script (nox.py).

The script's two pieces of decision logic are embedded shallowly:

- `collect_sample_dirs` walks a directory tree top-down; a directory whose
  immediate file list holds a file ending in "_test.py" is yielded and its
  subtree pruned; otherwise subdirectories not starting with an alphabetic
  character or whose joined path lies in the blacklist are dropped before
  descent.  A file system is modelled as the inductive tree `FsTree`
  (immediate file names plus named subtrees); `os.walk`'s in-place mutation
  of the subdirectory list is folded into the recursion as a per-child guard,
  which yields the same traversal.
- `filter_samples` keeps the candidate directories (normalized by stripping a
  leading "./") for which some changed file starts with the candidate as a
  plain string prefix, deduplicating the result.
- `get_changed_files` reads CI environment variables and shells out to git;
  the environment is a partial map `String → Option String` and git an oracle
  `List String → String`.  Handing the subprocess a missing (None) argument
  raises in Python, modelled by the `none` result.

String primitives are defined over `String.data` (lists of characters) so
that every definition evaluates by kernel reduction: `strStartsWith` is
Python's str.startswith, `strDrop` is slicing, `isTestFileName` is
f[-8:] == "_test.py", `firstIsAlpha` is s[0].isalpha() (ASCII letters; the
repository's directory names are ASCII), and `osPathJoin` is posixpath.join
for a relative name.  Well-formedness (`wfT`, `goodStart`) states what every
real directory tree satisfies: entry names are nonempty, contain no
separator, and are unique among siblings; the walk root is nonempty without
a trailing separator.
-/

/-- A directory: its immediate file names and its named subdirectories. -/
inductive FsTree where
  | mk (files : List String) (subdirs : List (String × FsTree))

def FsTree.files : FsTree → List String
  | .mk fs _ => fs

def FsTree.subdirs : FsTree → List (String × FsTree)
  | .mk _ sd => sd

/-- Python f[-8:] == "_test.py": the last eight characters of the file name. -/
def isTestFileName (f : String) : Bool :=
  f.data.drop (f.data.length - 8) == ['_', 't', 'e', 's', 't', '.', 'p', 'y']

/-- Python s[0].isalpha() for a (nonempty) directory-entry name. -/
def firstIsAlpha (s : String) : Bool :=
  match s.data with
  | [] => false
  | c :: _ => c.isAlpha

def headIsSlash (s : String) : Bool :=
  match s.data with
  | [] => false
  | c :: _ => c == '/'

def lastIsSlash (s : String) : Bool :=
  match s.data.getLast? with
  | some c => c == '/'
  | none => false

/-- posixpath.join for one component: an absolute component replaces the
parent; otherwise a separator is inserted unless the parent is empty or
already ends with one. -/
def osPathJoin (parent s : String) : String :=
  if headIsSlash s then s
  else if parent == "" || lastIsSlash parent then parent ++ s
  else parent ++ "/" ++ s

/-- The subdirectory filter of collect_sample_dirs:
s[0].isalpha() and os.path.join(parent, s) not in blacklist. -/
def keepSubdir (blacklist : List String) (parent : String) (s : String) : Bool :=
  firstIsAlpha s && !(blacklist.contains (osPathJoin parent s))

mutual

/-- collect_sample_dirs from nox.py: yield a directory as soon as one of its
immediate files ends in "_test.py" and do not descend further; otherwise
descend into the subdirectories that pass `keepSubdir`. -/
def collect_sample_dirs (blacklist : List String) (start_dir : String) :
    FsTree → List String
  | .mk files subdirs =>
    if files.any (fun f => isTestFileName f) then [start_dir]
    else collectFiltered blacklist start_dir subdirs

/-- The walk over the filtered subdirectory list (the source filters the list
in place and os.walk then recurses into exactly the kept entries). -/
def collectFiltered (blacklist : List String) (parent : String) :
    List (String × FsTree) → List String
  | [] => []
  | (s, child) :: rest =>
    (if keepSubdir blacklist parent s then
       collect_sample_dirs blacklist (osPathJoin parent s) child
     else []) ++ collectFiltered blacklist parent rest

end

/-- A name usable as a real directory entry: nonempty and separator-free. -/
def goodName (s : String) : Bool :=
  !s.data.isEmpty && s.data.all (fun c => !(c == '/'))

/-- A usable walk root: nonempty, no trailing separator. -/
def goodStart (s : String) : Bool :=
  !s.data.isEmpty && !(lastIsSlash s)

def distinctNames : List String → Bool
  | [] => true
  | n :: rest => rest.all (fun m => !(m == n)) && distinctNames rest

mutual

/-- Well-formedness of a modelled directory tree: sibling names are distinct
and every name is a `goodName`, recursively. -/
def wfT : FsTree → Bool
  | .mk _ subdirs => distinctNames (subdirs.map Prod.fst) && wfForest subdirs

def wfForest : List (String × FsTree) → Bool
  | [] => true
  | (n, c) :: rest => goodName n && wfT c && wfForest rest

end

/-- q lies strictly below p in path terms: q is p, a separator, and a rest. -/
def strictAncestor (p q : String) : Prop :=
  ∃ s : List Char, q.data = p.data ++ '/' :: s

/-- The path obtained by joining a chain of entry names onto a root. -/
def joinChain (start : String) (l : List String) : String :=
  l.foldl osPathJoin start

/-- The subtree of a tree reached by following a chain of entry names. -/
inductive Reaches : FsTree → List String → FsTree → Prop
  | refl (t : FsTree) : Reaches t [] t
  | step {t : FsTree} {n : String} {c : FsTree} {l : List String} {u : FsTree} :
      (n, c) ∈ t.subdirs → Reaches c l u → Reaches t (n :: l) u

mutual

/-- No file anywhere in the tree ends in "_test.py". -/
def treeNoTest : FsTree → Bool
  | .mk files subdirs =>
    !(files.any (fun f => isTestFileName f)) && forestNoTest subdirs

def forestNoTest : List (String × FsTree) → Bool
  | [] => true
  | (_, c) :: rest => treeNoTest c && forestNoTest rest

end

/-- Python changed_file.startswith(sample_dir), as a character-list test. -/
def strStartsWith (s pre : String) : Bool :=
  pre.data.isPrefixOf s.data

/-- Python s[n:]. -/
def strDrop (s : String) (n : Nat) : String :=
  ⟨s.data.drop n⟩

/-- The candidate normalization inside filter_samples:
if sample_dir.startswith("./"): sample_dir = sample_dir[2:]. -/
def normalizeDir (s : String) : String :=
  if strStartsWith s "./" then strDrop s 2 else s

/-- filter_samples from nox.py: for every candidate (normalized), append it
once per changed file that starts with it, then deduplicate
(list(set(result)); the order of the Python result is unspecified, and all
properties proved below are order-independent). -/
def filter_samples (sample_dirs : List String) (changed_files : List String) :
    List String :=
  (sample_dirs.flatMap (fun sample_dir =>
    let d := normalizeDir sample_dir
    (changed_files.filter (fun changed_file => strStartsWith changed_file d)).map
      (fun _ => d))).dedup

/-- changed.split('\n') with falsy (empty) entries dropped. -/
def splitLines (s : String) : List String :=
  (s.split (fun c => c == '\n')).filter (fun x => !(x == ""))

/-- get_changed_files from nox.py over an environment snapshot and a git
oracle.  The three branches mirror the source: TRAVIS_PULL_REQUEST equal to
"false" runs git show on TRAVIS_COMMIT; any other present value runs git
diff on TRAVIS_COMMIT and TRAVIS_BRANCH; an absent flag prints the
diagnostic (second component true) and returns the empty set.  Passing an
absent variable to subprocess.check_output raises TypeError in Python,
modelled as `none`. -/
def get_changed_files (env : String → Option String) (git : List String → String) :
    Option (List String × Bool) :=
  match env "TRAVIS_PULL_REQUEST" with
  | none => some ([], true)
  | some pr =>
    if pr == "false" then
      match env "TRAVIS_COMMIT" with
      | some commit =>
        some (splitLines (git ["show", "--pretty=format:", "--name-only", commit]), false)
      | none => none
    else
      match env "TRAVIS_COMMIT", env "TRAVIS_BRANCH" with
      | some commit, some branch =>
        some (splitLines (git ["diff", "--name-only", commit, branch]), false)
      | _, _ => none

/-- The file f lies directly or transitively inside directory d path-wise. -/
def dirContainsFile (d f : String) : Bool :=
  (d.data ++ ['/']).isPrefixOf f.data

/-- An environment with no variables set. -/
def envAbsent : String → Option String :=
  fun _ => none

/-- An environment where only the pull-request flag is set. -/
def envPrOnly : String → Option String :=
  fun v => if v == "TRAVIS_PULL_REQUEST" then some "1" else none

/-- A git oracle returning empty output for every command. -/
def gitStub : List String → String :=
  fun _ => ""

theorem FsTree.strongInd (P : FsTree → Prop)
    (h : ∀ files subdirs, (∀ n c, (n, c) ∈ subdirs → P c) → P (FsTree.mk files subdirs)) :
    ∀ t, P t := by
  have key : ∀ k t, sizeOf t ≤ k → P t := by
    intro k
    induction k with
    | zero =>
      intro t hle
      cases t with
      | mk files subdirs => simp at hle
    | succ k ih =>
      intro t hle
      cases t with
      | mk files subdirs =>
        apply h
        intro n c hmem
        apply ih
        have h1 := List.sizeOf_lt_of_mem hmem
        simp at hle h1 ⊢
        omega
  intro t
  exact key (sizeOf t) t (Nat.le_refl _)

theorem mem_collectFiltered (bl : List String) (p : String) (q : String)
    (l : List (String × FsTree)) :
    q ∈ collectFiltered bl p l ↔ ∃ n c, (n, c) ∈ l ∧
      keepSubdir bl p n = true ∧
      q ∈ collect_sample_dirs bl (osPathJoin p n) c := by
  induction l with
  | nil => simp [collectFiltered]
  | cons hd tl ih =>
    obtain ⟨n, c⟩ := hd
    rw [collectFiltered, List.mem_append, ih]
    by_cases hk : keepSubdir bl p n = true
    · rw [if_pos hk]
      constructor
      · rintro (hq | ⟨n', c', hm, hkept, hq⟩)
        · exact ⟨n, c, List.mem_cons_self _ _, hk, hq⟩
        · exact ⟨n', c', List.mem_cons_of_mem _ hm, hkept, hq⟩
      · rintro ⟨n', c', hm, hkept, hq⟩
        rcases List.mem_cons.mp hm with heq | hm'
        · obtain ⟨h1, h2⟩ := Prod.mk.injEq .. ▸ heq
          subst h1; subst h2
          exact Or.inl hq
        · exact Or.inr ⟨n', c', hm', hkept, hq⟩
    · rw [if_neg hk]
      simp only [List.not_mem_nil, false_or]
      constructor
      · rintro ⟨n', c', hm, hkept, hq⟩
        exact ⟨n', c', List.mem_cons_of_mem _ hm, hkept, hq⟩
      · rintro ⟨n', c', hm, hkept, hq⟩
        rcases List.mem_cons.mp hm with heq | hm'
        · obtain ⟨h1, h2⟩ := Prod.mk.injEq .. ▸ heq
          subst h1; subst h2
          exact absurd hkept hk
        · exact ⟨n', c', hm', hkept, hq⟩

theorem string_ext (a b : String) (h : a.data = b.data) : a = b := by
  cases a with
  | mk da => cases b with
    | mk db => exact congrArg String.mk h

theorem osPathJoin_eq (p n : String) (hp : goodStart p = true) (hn : goodName n = true) :
    osPathJoin p n = p ++ "/" ++ n := by
  simp only [goodStart, Bool.and_eq_true, Bool.not_eq_true'] at hp
  simp only [goodName, Bool.and_eq_true, Bool.not_eq_true'] at hn
  have hhead : headIsSlash n = false := by
    unfold headIsSlash
    cases hd : n.data with
    | nil => rfl
    | cons c cs =>
      have hc := List.all_eq_true.mp hn.2 c (hd ▸ List.mem_cons_self _ _)
      simpa using hc
  have hpe : (p == "") = false := by
    rw [beq_eq_false_iff_ne]
    intro hcon
    subst hcon
    simp [String.data] at hp
  unfold osPathJoin
  rw [hhead, hpe, hp.2]
  simp

theorem data_osPathJoin (p n : String) (hp : goodStart p = true) (hn : goodName n = true) :
    (osPathJoin p n).data = p.data ++ '/' :: n.data := by
  rw [osPathJoin_eq p n hp hn]
  rw [String.data_append, String.data_append, List.append_assoc]
  rfl

theorem goodStart_osPathJoin (p n : String) (hp : goodStart p = true) (hn : goodName n = true) :
    goodStart (osPathJoin p n) = true := by
  have hd := data_osPathJoin p n hp hn
  simp only [goodName, Bool.and_eq_true, Bool.not_eq_true'] at hn
  simp only [goodStart, Bool.and_eq_true, Bool.not_eq_true']
  constructor
  · rw [List.isEmpty_eq_false_iff_exists_mem]
    exact ⟨'/', by rw [hd]; simp⟩
  · unfold lastIsSlash
    rw [hd, List.getLast?_append_cons]
    cases hnd : n.data with
    | nil =>
      rw [hnd] at hn
      simp at hn
    | cons c cs =>
      rw [List.getLast?_cons_cons, List.getLast?_eq_getLast_of_ne_nil (List.cons_ne_nil c cs)]
      have hxmem : (c :: cs).getLast (List.cons_ne_nil c cs) ∈ n.data := by
        rw [hnd]
        exact List.getLast_mem _
      have hns := List.all_eq_true.mp hn.2 _ hxmem
      show ((c :: cs).getLast (List.cons_ne_nil c cs) == '/') = false
      simpa using hns

theorem wfForest_mem (l : List (String × FsTree)) (n : String) (c : FsTree)
    (hwf : wfForest l = true) (hm : (n, c) ∈ l) : goodName n = true ∧ wfT c = true := by
  induction l with
  | nil => cases hm
  | cons hd tl ih =>
    obtain ⟨m, d⟩ := hd
    rw [wfForest, Bool.and_eq_true, Bool.and_eq_true] at hwf
    rcases List.mem_cons.mp hm with heq | hm'
    · injection heq with h1 h2
      subst h1; subst h2
      exact ⟨hwf.1.1, hwf.1.2⟩
    · exact ih hwf.2 hm'

theorem distinct_mem_unique (l : List (String × FsTree)) (n : String) (c₁ c₂ : FsTree)
    (hd : distinctNames (l.map Prod.fst) = true)
    (h1 : (n, c₁) ∈ l) (h2 : (n, c₂) ∈ l) : c₁ = c₂ := by
  induction l with
  | nil => cases h1
  | cons hd' tl ih =>
    obtain ⟨m, d⟩ := hd'
    rw [List.map_cons, distinctNames, Bool.and_eq_true] at hd
    rcases List.mem_cons.mp h1 with he1 | hm1 <;> rcases List.mem_cons.mp h2 with he2 | hm2
    · injection he1 with a1 b1
      injection he2 with a2 b2
      subst b1; subst b2; rfl
    · injection he1 with a1 b1
      subst a1
      have := List.all_eq_true.mp hd.1 n (List.mem_map_of_mem Prod.fst hm2)
      simp at this
    · injection he2 with a2 b2
      subst a2
      have := List.all_eq_true.mp hd.1 n (List.mem_map_of_mem Prod.fst hm1)
      simp at this
    · exact ih hd.2 hm1 hm2

theorem noSlash_of_goodName (n : String) (h : goodName n = true) :
    ∀ c ∈ n.data, (c == '/') = false := by
  rw [goodName, Bool.and_eq_true] at h
  intro c hc
  have := List.all_eq_true.mp h.2 c hc
  simpa using this

theorem takeWhile_noSlash_append (a : List Char) (x : List Char)
    (h : ∀ c ∈ a, (c == '/') = false) :
    (a ++ '/' :: x).takeWhile (fun c => !(c == '/')) = a := by
  induction a with
  | nil => simp [List.takeWhile]
  | cons c cs ih =>
    rw [List.cons_append, List.takeWhile_cons]
    have hc := h c (List.mem_cons_self _ _)
    rw [hc]
    simp only [Bool.not_false, if_true]
    rw [ih (fun d hd => h d (List.mem_cons_of_mem _ hd))]

theorem takeWhile_noSlash_all (a : List Char) (h : ∀ c ∈ a, (c == '/') = false) :
    a.takeWhile (fun c => !(c == '/')) = a := by
  induction a with
  | nil => rfl
  | cons c cs ih =>
    rw [List.takeWhile_cons]
    have hc := h c (List.mem_cons_self _ _)
    rw [hc]
    simp only [Bool.not_false, if_true]
    rw [ih (fun d hd => h d (List.mem_cons_of_mem _ hd))]

theorem name_determined (n₁ n₂ : String) (h1 : goodName n₁ = true) (h2 : goodName n₂ = true)
    (r₁ r₂ s : List Char)
    (hr1 : r₁ = [] ∨ ∃ r, r₁ = '/' :: r) (hr2 : r₂ = [] ∨ ∃ r, r₂ = '/' :: r)
    (heq : n₂.data ++ r₂ = n₁.data ++ (r₁ ++ '/' :: s)) : n₁ = n₂ := by
  have hlhs : (n₂.data ++ r₂).takeWhile (fun c => !(c == '/')) = n₂.data := by
    rcases hr2 with rfl | ⟨r, rfl⟩
    · rw [List.append_nil]
      exact takeWhile_noSlash_all _ (noSlash_of_goodName n₂ h2)
    · exact takeWhile_noSlash_append _ _ (noSlash_of_goodName n₂ h2)
  have hrhs : (n₁.data ++ (r₁ ++ '/' :: s)).takeWhile (fun c => !(c == '/')) = n₁.data := by
    rcases hr1 with rfl | ⟨r, rfl⟩
    · rw [List.nil_append]
      exact takeWhile_noSlash_append _ _ (noSlash_of_goodName n₁ h1)
    · rw [List.cons_append]
      exact takeWhile_noSlash_append _ _ (noSlash_of_goodName n₁ h1)
  rw [heq, hrhs] at hlhs
  exact string_ext n₁ n₂ hlhs

theorem collect_shape (t : FsTree) : ∀ (bl : List String) (start : String),
    wfT t = true → goodStart start = true →
    ∀ q ∈ collect_sample_dirs bl start t,
      goodStart q = true ∧
        (q = start ∨ ∃ r : List Char, q.data = start.data ++ '/' :: r) := by
  induction t using FsTree.strongInd with
  | h files subdirs ih =>
    intro bl start hwf hgs q hq
    rw [collect_sample_dirs] at hq
    by_cases ht : files.any (fun f => isTestFileName f) = true
    · rw [if_pos ht] at hq
      rcases List.mem_singleton.mp hq with rfl
      exact ⟨hgs, Or.inl rfl⟩
    · rw [if_neg ht] at hq
      rw [mem_collectFiltered] at hq
      obtain ⟨n, c, hmem, hkept, hq⟩ := hq
      rw [wfT, Bool.and_eq_true] at hwf
      obtain ⟨hgn, hwc⟩ := wfForest_mem _ _ _ hwf.2 hmem
      have hgs' := goodStart_osPathJoin start n hgs hgn
      obtain ⟨hgq, hsh⟩ := ih n c hmem bl (osPathJoin start n) hwc hgs' q hq
      refine ⟨hgq, Or.inr ?_⟩
      rcases hsh with rfl | ⟨r, hr⟩
      · exact ⟨n.data, data_osPathJoin start n hgs hgn⟩
      · refine ⟨n.data ++ '/' :: r, ?_⟩
        rw [hr, data_osPathJoin start n hgs hgn, List.append_assoc]
        rfl

theorem not_ancestor_of_join (start n b : String)
    (hgs : goodStart start = true) (hgn : goodName n = true)
    (hne : b ≠ start) (hna : ¬ strictAncestor b start) :
    ¬ strictAncestor b (osPathJoin start n) := by
  rintro ⟨s, hs⟩
  rw [data_osPathJoin start n hgs hgn] at hs
  rw [List.append_eq_append_iff] at hs
  rcases hs with ⟨x, hx1, hx2⟩ | ⟨x, hx1, hx2⟩
  · cases x with
    | nil =>
      rw [List.append_nil] at hx1
      exact hne (string_ext b start hx1)
    | cons y ys =>
      rw [List.cons_append] at hx2
      obtain ⟨hy1, hy2⟩ := List.cons.injEq .. ▸ hx2
      have hmem : '/' ∈ n.data := by
        rw [hy2]
        exact List.mem_append_right _ (List.mem_cons_self _ _)
      have := noSlash_of_goodName n hgn '/' hmem
      simp at this
  · cases x with
    | nil =>
      rw [List.append_nil] at hx1
      exact hne (string_ext b start hx1.symm)
    | cons y ys =>
      rw [List.cons_append] at hx2
      obtain ⟨hy1, hy2⟩ := List.cons.injEq .. ▸ hx2
      subst hy1
      exact hna ⟨ys, by rw [hx1]⟩

theorem forestNoTest_mem (l : List (String × FsTree)) (n : String) (c : FsTree)
    (h : forestNoTest l = true) (hm : (n, c) ∈ l) : treeNoTest c = true := by
  induction l with
  | nil => cases hm
  | cons hd tl ih =>
    obtain ⟨m, d⟩ := hd
    rw [forestNoTest, Bool.and_eq_true] at h
    rcases List.mem_cons.mp hm with heq | hm'
    · injection heq with h1 h2
      subst h2
      exact h.1
    · exact ih h.2 hm'

theorem collect_chain (t : FsTree) : ∀ (bl : List String) (start q : String),
    q ∈ collect_sample_dirs bl start t →
    ∃ (l : List String) (u : FsTree), Reaches t l u ∧ q = joinChain start l ∧
      (∀ n ∈ l, firstIsAlpha n = true) ∧
      u.files.any (fun f => isTestFileName f) = true := by
  induction t using FsTree.strongInd with
  | h files subdirs ih =>
    intro bl start q hq
    rw [collect_sample_dirs] at hq
    by_cases ht : files.any (fun f => isTestFileName f) = true
    · rw [if_pos ht] at hq
      rcases List.mem_singleton.mp hq with rfl
      exact ⟨[], .mk files subdirs, Reaches.refl _, rfl, by simp, ht⟩
    · rw [if_neg ht, mem_collectFiltered] at hq
      obtain ⟨n, c, hmem, hkept, hq⟩ := hq
      obtain ⟨l, u, hre, hjq, halpha, hu⟩ := ih n c hmem bl (osPathJoin start n) q hq
      rw [keepSubdir, Bool.and_eq_true] at hkept
      refine ⟨n :: l, u, Reaches.step hmem hre, ?_, ?_, hu⟩
      · rw [hjq]
        rfl
      · intro m hm
        rcases List.mem_cons.mp hm with rfl | hm'
        · exact hkept.1
        · exact halpha m hm'

theorem collect_of_noTest (t : FsTree) : ∀ (bl : List String) (start : String),
    treeNoTest t = true → collect_sample_dirs bl start t = [] := by
  induction t using FsTree.strongInd with
  | h files subdirs ih =>
    intro bl start hnt
    rw [treeNoTest, Bool.and_eq_true] at hnt
    rw [collect_sample_dirs, if_neg (by simp [Bool.not_eq_true] at hnt ⊢; exact hnt.1)]
    rw [List.eq_nil_iff_forall_not_mem]
    intro q hq
    rw [mem_collectFiltered] at hq
    obtain ⟨n, c, hmem, hkept, hq⟩ := hq
    rw [ih n c hmem bl (osPathJoin start n) (forestNoTest_mem _ _ _ hnt.2 hmem)] at hq
    cases hq

theorem mem_filter_samples (sample_dirs changed_files : List String) (d : String) :
    d ∈ filter_samples sample_dirs changed_files ↔
      ∃ d₀ ∈ sample_dirs, d = normalizeDir d₀ ∧
        ∃ c ∈ changed_files, strStartsWith c (normalizeDir d₀) = true := by
  unfold filter_samples
  rw [List.mem_dedup, List.mem_flatMap]
  constructor
  · rintro ⟨d₀, hd₀, hmem⟩
    rw [List.mem_map] at hmem
    obtain ⟨c, hc, hcd⟩ := hmem
    rw [List.mem_filter] at hc
    exact ⟨d₀, hd₀, hcd.symm, c, hc.1, hc.2⟩
  · rintro ⟨d₀, hd₀, rfl, c, hc, hsw⟩
    refine ⟨d₀, hd₀, ?_⟩
    rw [List.mem_map]
    exact ⟨c, List.mem_filter.mpr ⟨hc, hsw⟩, rfl⟩

theorem normalizeDir_fixed (d : String) (h : strStartsWith d "./" = false) :
    normalizeDir d = d := by
  unfold normalizeDir
  rw [h]
  simp

/-- C1: for every well-formed directory tree and every blacklist, no path
yielded by collect_sample_dirs is a strict ancestor of another yielded path
in the same pass: once a test-bearing directory is yielded its subtree is
pruned, so the yielded set is disjoint and non-nested. -/
theorem collect_sample_dirs_no_nested_yields (t : FsTree) :
    ∀ (bl : List String) (start : String),
    wfT t = true → goodStart start = true →
    ∀ p ∈ collect_sample_dirs bl start t, ∀ q ∈ collect_sample_dirs bl start t,
      ¬ strictAncestor p q := by
  induction t using FsTree.strongInd with
  | h files subdirs ih =>
    intro bl start hwf hgs p hp q hq hanc
    rw [collect_sample_dirs] at hp hq
    by_cases ht : files.any (fun f => isTestFileName f) = true
    · rw [if_pos ht] at hp hq
      rcases List.mem_singleton.mp hp with rfl
      rcases List.mem_singleton.mp hq with rfl
      obtain ⟨s, hs⟩ := hanc
      have := congrArg List.length hs
      simp at this
    · rw [if_neg ht, mem_collectFiltered] at hp hq
      obtain ⟨n₁, c₁, hm1, hk1, hp⟩ := hp
      obtain ⟨n₂, c₂, hm2, hk2, hq⟩ := hq
      rw [wfT, Bool.and_eq_true] at hwf
      obtain ⟨hgn1, hwc1⟩ := wfForest_mem _ _ _ hwf.2 hm1
      obtain ⟨hgn2, hwc2⟩ := wfForest_mem _ _ _ hwf.2 hm2
      by_cases hnn : n₁ = n₂
      · subst hnn
        have hcc := distinct_mem_unique _ _ _ _ hwf.1 hm1 hm2
        subst hcc
        exact ih n₁ c₁ hm1 bl (osPathJoin start n₁)
          hwc1 (goodStart_osPathJoin start n₁ hgs hgn1) p hp q hq hanc
      · have hsh1 := (collect_shape c₁ bl (osPathJoin start n₁) hwc1
          (goodStart_osPathJoin start n₁ hgs hgn1) p hp).2
        have hsh2 := (collect_shape c₂ bl (osPathJoin start n₂) hwc2
          (goodStart_osPathJoin start n₂ hgs hgn2) q hq).2
        have hp' : ∃ r₁ : List Char, p.data = start.data ++ '/' :: (n₁.data ++ r₁) ∧
            (r₁ = [] ∨ ∃ r, r₁ = '/' :: r) := by
          rcases hsh1 with rfl | ⟨r, hr⟩
          · exact ⟨[], by rw [data_osPathJoin start n₁ hgs hgn1, List.append_nil], Or.inl rfl⟩
          · refine ⟨'/' :: r, ?_, Or.inr ⟨r, rfl⟩⟩
            rw [hr, data_osPathJoin start n₁ hgs hgn1, List.append_assoc]
            rfl
        have hq' : ∃ r₂ : List Char, q.data = start.data ++ '/' :: (n₂.data ++ r₂) ∧
            (r₂ = [] ∨ ∃ r, r₂ = '/' :: r) := by
          rcases hsh2 with rfl | ⟨r, hr⟩
          · exact ⟨[], by rw [data_osPathJoin start n₂ hgs hgn2, List.append_nil], Or.inl rfl⟩
          · refine ⟨'/' :: r, ?_, Or.inr ⟨r, rfl⟩⟩
            rw [hr, data_osPathJoin start n₂ hgs hgn2, List.append_assoc]
            rfl
        obtain ⟨r₁, hpd, hr1⟩ := hp'
        obtain ⟨r₂, hqd, hr2⟩ := hq'
        obtain ⟨s, hs⟩ := hanc
        rw [hqd, hpd] at hs
        rw [List.append_assoc] at hs
        have hs' := List.append_cancel_left hs
        rw [List.cons_append] at hs'
        have heq : n₂.data ++ r₂ = n₁.data ++ (r₁ ++ '/' :: s) := by
          have := (List.cons.injEq '/' _ '/' _).mp hs'
          rw [this.2, List.append_assoc]
        exact hnn (name_determined n₁ n₂ hgn1 hgn2 r₁ r₂ s hr1 hr2 heq)

/-- C1 witness: on the tree with a/x_test.py and a/sub/y_test.py the walk
yields "./a" and no yielded pair is nested. -/
theorem collect_sample_dirs_no_nested_yields_witness :
    wfT (FsTree.mk []
      [("a", FsTree.mk ["x_test.py"] [("sub", FsTree.mk ["y_test.py"] [])])]) = true ∧
    goodStart "." = true ∧
    "./a" ∈ collect_sample_dirs [] "."
      (FsTree.mk []
        [("a", FsTree.mk ["x_test.py"] [("sub", FsTree.mk ["y_test.py"] [])])]) ∧
    ¬ strictAncestor "./a" "./a" :=
  ⟨by decide, by decide, by decide,
    collect_sample_dirs_no_nested_yields
      (FsTree.mk []
        [("a", FsTree.mk ["x_test.py"] [("sub", FsTree.mk ["y_test.py"] [])])])
      [] "." (by decide) (by decide) "./a" (by decide) "./a" (by decide)⟩

/-- C2 counterexample: the claim fails when the blacklisted path is the start
directory itself.  With start directory "a" blacklisted and containing
x_test.py, the walk still yields the blacklisted path "a". -/
theorem collect_sample_dirs_blacklisted_start_yielded :
    "a" ∈ (["a"] : List String) ∧
    collect_sample_dirs ["a"] "a" (FsTree.mk ["x_test.py"] []) = ["a"] := by
  exact ⟨by decide, by decide⟩

/-- C2 amended: for a blacklisted path b that is neither the start directory
nor a path-ancestor of the start directory, collect_sample_dirs never yields
b nor any descendant of b; the blacklist check is applied only to
subdirectories before descent, so a blacklisted start directory (or an
ancestor of the start) is not excluded. -/
theorem collect_sample_dirs_blacklist_prunes_subdirs (t : FsTree) :
    ∀ (bl : List String) (start b : String),
    wfT t = true → goodStart start = true →
    b ∈ bl → b ≠ start → ¬ strictAncestor b start →
    ∀ q ∈ collect_sample_dirs bl start t, q ≠ b ∧ ¬ strictAncestor b q := by
  induction t using FsTree.strongInd with
  | h files subdirs ih =>
    intro bl start b hwf hgs hbl hne hna q hq
    rw [collect_sample_dirs] at hq
    by_cases ht : files.any (fun f => isTestFileName f) = true
    · rw [if_pos ht] at hq
      rcases List.mem_singleton.mp hq with rfl
      exact ⟨fun h => hne h.symm, hna⟩
    · rw [if_neg ht, mem_collectFiltered] at hq
      obtain ⟨n, c, hmem, hkept, hq⟩ := hq
      rw [wfT, Bool.and_eq_true] at hwf
      obtain ⟨hgn, hwc⟩ := wfForest_mem _ _ _ hwf.2 hmem
      rw [keepSubdir, Bool.and_eq_true] at hkept
      have hnotbl : osPathJoin start n ∉ bl := by
        have := hkept.2
        simp at this
        simpa using this
      have hne' : b ≠ osPathJoin start n := fun h => hnotbl (h ▸ hbl)
      have hna' := not_ancestor_of_join start n b hgs hgn hne hna
      exact ih n c hmem bl (osPathJoin start n) b hwc
        (goodStart_osPathJoin start n hgs hgn) hbl hne' hna' q hq

/-- C2 witness: with b/ (no tests), b/c (has z_test.py) and a/ (has
x_test.py) under start ".", blacklisting "./b/c" leaves only "./a", which is
neither the blacklisted path nor below it. -/
theorem collect_sample_dirs_blacklist_prunes_subdirs_witness :
    wfT (FsTree.mk [] [("a", FsTree.mk ["x_test.py"] []),
      ("b", FsTree.mk [] [("c", FsTree.mk ["z_test.py"] [])])]) = true ∧
    goodStart "." = true ∧
    "./b/c" ∈ (["./b/c"] : List String) ∧
    "./b/c" ≠ "." ∧
    ¬ strictAncestor "./b/c" "." ∧
    "./a" ∈ collect_sample_dirs ["./b/c"] "."
      (FsTree.mk [] [("a", FsTree.mk ["x_test.py"] []),
        ("b", FsTree.mk [] [("c", FsTree.mk ["z_test.py"] [])])]) ∧
    ("./a" ≠ "./b/c" ∧ ¬ strictAncestor "./b/c" "./a") :=
  ⟨by decide, by decide, by decide, by decide,
    by
      rintro ⟨s, hs⟩
      have hm : '/' ∈ "./b/c".data ++ '/' :: s :=
        List.mem_append_right _ (List.mem_cons_self _ _)
      rw [← hs] at hm
      exact absurd hm (by decide),
    by decide,
    collect_sample_dirs_blacklist_prunes_subdirs
      (FsTree.mk [] [("a", FsTree.mk ["x_test.py"] []),
        ("b", FsTree.mk [] [("c", FsTree.mk ["z_test.py"] [])])])
      ["./b/c"] "." "./b/c" (by decide) (by decide) (by decide) (by decide)
      (by
        rintro ⟨s, hs⟩
        have hm : '/' ∈ "./b/c".data ++ '/' :: s :=
          List.mem_append_right _ (List.mem_cons_self _ _)
        rw [← hs] at hm
        exact absurd hm (by decide))
      "./a" (by decide)⟩

/-- C3: filter_samples returns exactly the candidates (in normalized form,
with a leading "./" stripped) for which at least one changed file starts
with the normalized candidate as a plain string prefix, and the returned
list has no duplicates. -/
theorem filter_samples_exact_subset (sample_dirs changed_files : List String) :
    (filter_samples sample_dirs changed_files).Nodup ∧
    ∀ d, d ∈ filter_samples sample_dirs changed_files ↔
      ∃ d₀ ∈ sample_dirs, d = normalizeDir d₀ ∧
        ∃ c ∈ changed_files, strStartsWith c (normalizeDir d₀) = true :=
  ⟨List.nodup_dedup _, fun d => mem_filter_samples sample_dirs changed_files d⟩

/-- C4: filter_samples with an empty changed-file set returns the empty
list for every candidate list, never the full candidate list. -/
theorem filter_samples_empty_changed_set (sample_dirs : List String) :
    filter_samples sample_dirs [] = [] := by
  unfold filter_samples
  simp

/-- C5 counterexample: filter_samples is not idempotent.  The candidate
"././a" is normalized only one step, to "./a", which matches the changed
file "./a"; refiltering the output normalizes "./a" to "a", which no changed
file starts with, so the second pass drops it. -/
theorem filter_samples_not_idempotent_cex :
    filter_samples ["././a"] ["./a"] = ["./a"] ∧
    filter_samples (filter_samples ["././a"] ["./a"]) ["./a"] = [] := by
  exact ⟨by decide, by decide⟩

/-- C5 amended: filter_samples is idempotent up to set equality on every
candidate list whose members still do not start with "./" after one
normalization step (in particular on any list of already-normalized
candidates). -/
theorem filter_samples_idempotent_on_normalized (sample_dirs changed_files : List String)
    (h : ∀ d ∈ sample_dirs, strStartsWith (normalizeDir d) "./" = false) :
    ∀ x, x ∈ filter_samples (filter_samples sample_dirs changed_files) changed_files ↔
      x ∈ filter_samples sample_dirs changed_files := by
  intro x
  constructor
  · rw [mem_filter_samples]
    rintro ⟨d₁, hd₁, rfl, c, hc, hsw⟩
    rw [mem_filter_samples] at hd₁
    obtain ⟨d₀, hd₀, rfl, c₀, hc₀, hsw₀⟩ := hd₁
    rw [normalizeDir_fixed _ (h d₀ hd₀)]
    rw [mem_filter_samples]
    exact ⟨d₀, hd₀, rfl, c₀, hc₀, hsw₀⟩
  · intro hx
    have hx' := hx
    rw [mem_filter_samples] at hx'
    obtain ⟨d₀, hd₀, rfl, c₀, hc₀, hsw₀⟩ := hx'
    rw [mem_filter_samples]
    refine ⟨normalizeDir d₀, hx, ?_, c₀, hc₀, ?_⟩
    · rw [normalizeDir_fixed _ (h d₀ hd₀)]
    · rw [normalizeDir_fixed _ (h d₀ hd₀)]
      exact hsw₀

/-- C5 witness: on the candidates foo and bar with changed file
foo/README.md, refiltering the filtered list changes nothing. -/
theorem filter_samples_idempotent_on_normalized_witness :
    (∀ d ∈ (["foo", "bar"] : List String), strStartsWith (normalizeDir d) "./" = false) ∧
    ("foo" ∈ filter_samples (filter_samples ["foo", "bar"] ["foo/README.md"]) ["foo/README.md"] ↔
      "foo" ∈ filter_samples ["foo", "bar"] ["foo/README.md"]) :=
  ⟨by decide,
    filter_samples_idempotent_on_normalized ["foo", "bar"] ["foo/README.md"]
      (by decide) "foo"⟩

/-- C6: every path yielded by collect_sample_dirs is the start directory
joined with a chain of subdirectory names each of which begins with an
alphabetic character: the walk never descends into a subdirectory whose
name starts with a non-alphabetic character, so no yielded path has such a
component strictly below the start directory. -/
theorem collect_sample_dirs_alpha_components (bl : List String) (start : String)
    (t : FsTree) (q : String) (hq : q ∈ collect_sample_dirs bl start t) :
    ∃ l : List String, q = joinChain start l ∧ ∀ n ∈ l, firstIsAlpha n = true := by
  obtain ⟨l, u, _, hj, ha, _⟩ := collect_chain t bl start q hq
  exact ⟨l, hj, ha⟩

/-- C6 witness: with subdirectories a (tests) and .hidden (tests), only
"./a" is yielded and its chain consists of alphabetic-initial names. -/
theorem collect_sample_dirs_alpha_components_witness :
    "./a" ∈ collect_sample_dirs [] "."
      (FsTree.mk [] [("a", FsTree.mk ["x_test.py"] []),
        (".hidden", FsTree.mk ["h_test.py"] [])]) ∧
    ∃ l : List String, "./a" = joinChain "." l ∧ ∀ n ∈ l, firstIsAlpha n = true :=
  ⟨by decide,
    collect_sample_dirs_alpha_components [] "."
      (FsTree.mk [] [("a", FsTree.mk ["x_test.py"] []),
        (".hidden", FsTree.mk ["h_test.py"] [])]) "./a" (by decide)⟩

/-- C7: every path yielded by collect_sample_dirs is the path of a reachable
subtree whose immediate file list holds a file ending in "_test.py"; and on
a tree with no test file anywhere the walk yields the empty list. -/
theorem collect_sample_dirs_yields_test_dirs :
    (∀ (bl : List String) (start : String) (t : FsTree) (q : String),
      q ∈ collect_sample_dirs bl start t →
      ∃ (l : List String) (u : FsTree), Reaches t l u ∧ q = joinChain start l ∧
        u.files.any (fun f => isTestFileName f) = true) ∧
    (∀ (bl : List String) (start : String) (t : FsTree),
      treeNoTest t = true → collect_sample_dirs bl start t = []) := by
  constructor
  · intro bl start t q hq
    obtain ⟨l, u, hre, hj, _, hu⟩ := collect_chain t bl start q hq
    exact ⟨l, u, hre, hj, hu⟩
  · intro bl start t h
    exact collect_of_noTest t bl start h

/-- C7 witness: "./a" is yielded for a tree whose subtree a holds
x_test.py, and a tree with no test file anywhere yields nothing. -/
theorem collect_sample_dirs_yields_test_dirs_witness :
    ("./a" ∈ collect_sample_dirs [] "."
      (FsTree.mk [] [("a", FsTree.mk ["x_test.py"] [("sub", FsTree.mk ["y_test.py"] [])])]) ∧
     ∃ (l : List String) (u : FsTree),
       Reaches (FsTree.mk []
           [("a", FsTree.mk ["x_test.py"] [("sub", FsTree.mk ["y_test.py"] [])])]) l u ∧
       "./a" = joinChain "." l ∧
       u.files.any (fun f => isTestFileName f) = true) ∧
    (treeNoTest (FsTree.mk ["readme.md"] [("x", FsTree.mk [] [])]) = true ∧
     collect_sample_dirs [] "." (FsTree.mk ["readme.md"] [("x", FsTree.mk [] [])]) = []) :=
  ⟨⟨by decide,
    collect_sample_dirs_yields_test_dirs.1 [] "."
      (FsTree.mk [] [("a", FsTree.mk ["x_test.py"] [("sub", FsTree.mk ["y_test.py"] [])])])
      "./a" (by decide)⟩,
   ⟨by decide,
    collect_sample_dirs_yields_test_dirs.2 [] "."
      (FsTree.mk ["readme.md"] [("x", FsTree.mk [] [])]) (by decide)⟩⟩

/-- C8 counterexample: with the pull-request flag present (value "1") but
TRAVIS_COMMIT absent, get_changed_files hands the subprocess invocation a
missing argument and raises (modelled as none) instead of degrading to an
empty changed-file set. -/
theorem get_changed_files_missing_commit_crashes :
    get_changed_files envPrOnly gitStub = none := by
  rfl

/-- C8 amended: only when the pull-request flag variable itself is absent
does get_changed_files degrade gracefully, returning the empty changed-file
set together with the diagnostic message; when the flag is present but the
commit (or, for pull requests, the branch) variable is absent, the
subprocess call receives a missing argument and the function raises instead
of degrading. -/
theorem get_changed_files_absent_flag_degrades (env : String → Option String)
    (git : List String → String) (h : env "TRAVIS_PULL_REQUEST" = none) :
    get_changed_files env git = some ([], true) := by
  unfold get_changed_files
  rw [h]

/-- C8 witness: with no environment variables set at all, the result is the
empty changed-file set plus the diagnostic. -/
theorem get_changed_files_absent_flag_degrades_witness :
    envAbsent "TRAVIS_PULL_REQUEST" = none ∧
    get_changed_files envAbsent gitStub = some ([], true) :=
  ⟨rfl, get_changed_files_absent_flag_degrades envAbsent gitStub rfl⟩

/-- C9: the blacklist check of collect_sample_dirs applies only to
subdirectories before descent, never to the start directory: even when the
start directory is itself in the blacklist, it is yielded as soon as its
immediate file list holds a file ending in "_test.py". -/
theorem collect_sample_dirs_blacklist_ignores_start (bl : List String)
    (start : String) (t : FsTree) (_hbl : start ∈ bl)
    (ht : t.files.any (fun f => isTestFileName f) = true) :
    collect_sample_dirs bl start t = [start] := by
  cases t with
  | mk files subdirs =>
    rw [collect_sample_dirs,
      if_pos (show (files.any fun f => isTestFileName f) = true from ht)]

/-- C9 witness: start directory "a" blacklisted and containing x_test.py is
still yielded. -/
theorem collect_sample_dirs_blacklist_ignores_start_witness :
    "a" ∈ (["a"] : List String) ∧
    (FsTree.mk ["x_test.py"] []).files.any (fun f => isTestFileName f) = true ∧
    collect_sample_dirs ["a"] "a" (FsTree.mk ["x_test.py"] []) = ["a"] :=
  ⟨by decide, by decide,
    collect_sample_dirs_blacklist_ignores_start ["a"] "a"
      (FsTree.mk ["x_test.py"] []) (by decide) (by decide)⟩

/-- C10: filter_samples matches by plain string prefix, not by path
component: candidate "foo" is returned for the changed file "foobar/x.py"
even though that file is not the candidate and does not lie inside the
directory "foo". -/
theorem filter_samples_plain_string_match :
    filter_samples ["foo"] ["foobar/x.py"] = ["foo"] ∧
    dirContainsFile "foo" "foobar/x.py" = false ∧
    "foobar/x.py" ≠ "foo" := by
  exact ⟨by decide, by decide, by decide⟩
